import Mathlib

/-!
# Verification of the hifi entity tree core

A shallow embedding of the entity spatial index of `libraries/entities/src/EntityTree.h`
and of `libraries/physics/src/ObjectActionPullToPoint.cpp`, together with proofs of
the documented properties.

Geometry is modelled in the spec's power-of-two-scaled integer coordinate
system.  An octree element is a cube given by an origin and an edge length;
the cube is read as the half-open cell
`[origin, origin + scale)^3`, so that the eight child octants of an element
partition the parent volume exactly (no overlap, no gap), as the data model
requires.  Entity bounding volumes are closed axis-aligned boxes.
-/

namespace Hifi

/-- A point in world coordinates, in the power-of-two-scaled coordinate
system (one unit = the smallest element edge). -/
structure Vec3 where
  x : ℤ
  y : ℤ
  z : ℤ
deriving DecidableEq, Repr

/-- An axis-aligned bounding box: the closed product of intervals `[lo, hi]`. -/
structure AABox where
  lo : Vec3
  hi : Vec3
deriving DecidableEq, Repr

/-- The cube of an octree element: origin plus edge length, read as the
half-open cell `[origin, origin + scale)^3`. -/
structure AACube where
  origin : Vec3
  scale : ℤ
deriving DecidableEq, Repr

/-- The box has a point (each interval is nonempty). -/
def boxNonempty (b : AABox) : Bool :=
  decide (b.lo.x ≤ b.hi.x) && decide (b.lo.y ≤ b.hi.y) && decide (b.lo.z ≤ b.hi.z)

/-- The box is non-degenerate: positive extent on every axis.  Degenerate
bounding volumes are rejected as `InvalidBound` by the edit path. -/
def boxProper (b : AABox) : Bool :=
  decide (b.lo.x < b.hi.x) && decide (b.lo.y < b.hi.y) && decide (b.lo.z < b.hi.z)

/-- The element cube fully contains the box: `origin ≤ lo` and `hi < origin + scale`
on every axis (half-open cell). -/
def cellContainsBox (c : AACube) (b : AABox) : Bool :=
  decide (c.origin.x ≤ b.lo.x) && decide (b.hi.x < c.origin.x + c.scale) &&
  decide (c.origin.y ≤ b.lo.y) && decide (b.hi.y < c.origin.y + c.scale) &&
  decide (c.origin.z ≤ b.lo.z) && decide (b.hi.z < c.origin.z + c.scale)

/-- The element cube contains the point (half-open on every axis). -/
def cellContainsPoint (c : AACube) (v : Vec3) : Prop :=
  (c.origin.x ≤ v.x ∧ v.x < c.origin.x + c.scale) ∧
  (c.origin.y ≤ v.y ∧ v.y < c.origin.y + c.scale) ∧
  (c.origin.z ≤ v.z ∧ v.z < c.origin.z + c.scale)

/-- The child octant of an element: bit 0 of the octant index selects the upper
half in x, bit 1 in y, bit 2 in z.  The eight children have half the parent's
edge length and partition the parent cell. -/
def childCell (c : AACube) (i : Fin 8) : AACube :=
  { origin :=
      { x := c.origin.x + (if i.val % 2 = 1 then c.scale / 2 else 0),
        y := c.origin.y + (if i.val / 2 % 2 = 1 then c.scale / 2 else 0),
        z := c.origin.z + (if i.val / 4 % 2 = 1 then c.scale / 2 else 0) },
    scale := c.scale / 2 }

/-- The first child octant whose volume fully contains the box, if any. -/
def containingChild (c : AACube) (b : AABox) : Option (Fin 8) :=
  (List.finRange 8).find? (fun i => cellContainsBox (childCell c i) b)

/-- Insertion descent: starting at element `c`, descend into the child octant
whose volume fully contains the box; stop when no child contains it or the
depth budget is exhausted, and place the entity at the current element. -/
def descend (c : AACube) (b : AABox) : ℕ → AACube
  | 0 => c
  | Nat.succ d =>
    match containingChild c b with
    | some i => descend (childCell c i) b d
    | none => c

/-- The octal path (sequence of octant choices) taken by the insertion descent. -/
def descendPath (c : AACube) (b : AABox) : ℕ → List (Fin 8)
  | 0 => []
  | Nat.succ d =>
    match containingChild c b with
    | some i => i :: descendPath (childCell c i) b d
    | none => []

/-- Follow an octal path down from an element. -/
def applyPath (c : AACube) : List (Fin 8) → AACube
  | [] => c
  | i :: p => applyPath (childCell c i) p

/-- Smallest extent of a box over the three axes. -/
def minExt (b : AABox) : ℤ :=
  min (b.hi.x - b.lo.x) (min (b.hi.y - b.lo.y) (b.hi.z - b.lo.z))

lemma offset_cases (s : ℤ) (q : Prop) [Decidable q] :
    (if q then s else 0) = 0 ∨ (if q then s else 0) = s := by
  split
  · right; rfl
  · left; rfl

lemma childCell_scale (c : AACube) (i : Fin 8) : (childCell c i).scale = c.scale / 2 := rfl

/-- Containment in a child octant implies containment in the parent (for
nonnegative edge length). -/
lemma cellContainsBox_of_child (c : AACube) (i : Fin 8) (b : AABox)
    (hs : 0 ≤ c.scale) (h : cellContainsBox (childCell c i) b = true) :
    cellContainsBox c b = true := by
  simp only [cellContainsBox, childCell, Bool.and_eq_true, decide_eq_true_eq] at h ⊢
  obtain ⟨⟨⟨⟨⟨hx1, hx2⟩, hy1⟩, hy2⟩, hz1⟩, hz2⟩ := h
  rcases offset_cases (c.scale / 2) (i.val % 2 = 1) with he | he <;>
    rcases offset_cases (c.scale / 2) (i.val / 2 % 2 = 1) with he2 | he2 <;>
    rcases offset_cases (c.scale / 2) (i.val / 4 % 2 = 1) with he3 | he3 <;>
    rw [he] at hx1 hx2 <;> rw [he2] at hy1 hy2 <;> rw [he3] at hz1 hz2 <;>
    refine ⟨⟨⟨⟨⟨by omega, by omega⟩, by omega⟩, by omega⟩, by omega⟩, by omega⟩

/-- Containment at the end of an octal path implies containment at its start. -/
lemma cellContainsBox_of_applyPath (b : AABox) :
    ∀ (p : List (Fin 8)) (c : AACube), 0 ≤ c.scale →
      cellContainsBox (applyPath c p) b = true → cellContainsBox c b = true := by
  intro p
  induction p with
  | nil => intro c _ h; exact h
  | cons i rest ih =>
    intro c hs h
    have hs2 : 0 ≤ (childCell c i).scale := by
      rw [childCell_scale]; omega
    exact cellContainsBox_of_child c i b hs (ih (childCell c i) hs2 h)

/-- The insertion descent never leaves the volume it starts from: the final
element still fully contains the box. -/
lemma descend_contains (b : AABox) :
    ∀ (d : ℕ) (c : AACube), cellContainsBox c b = true →
      cellContainsBox (descend c b d) b = true := by
  intro d
  induction d with
  | zero => intro c h; exact h
  | succ d ih =>
    intro c h
    rw [descend]
    rcases hc : containingChild c b with _ | i
    · exact h
    · have hi : cellContainsBox (childCell c i) b = true := by
        have := List.find?_some hc
        simpa using this
      exact ih (childCell c i) hi

/-- The descent result is the element at the end of the descent path. -/
lemma descend_eq_applyPath (b : AABox) :
    ∀ (d : ℕ) (c : AACube), descend c b d = applyPath c (descendPath c b d) := by
  intro d
  induction d with
  | zero => intro c; rfl
  | succ d ih =>
    intro c
    rw [descend, descendPath]
    rcases hc : containingChild c b with _ | i
    · rfl
    · simpa [applyPath] using ih (childCell c i)

/-- The descent path never exceeds the depth budget. -/
lemma descendPath_length (b : AABox) :
    ∀ (d : ℕ) (c : AACube), (descendPath c b d).length ≤ d := by
  intro d
  induction d with
  | zero => intro c; simp [descendPath]
  | succ d ih =>
    intro c
    rw [descendPath]
    rcases containingChild c b with _ | i
    · simp
    · simpa using Nat.succ_le_succ (ih (childCell c i))

/-- A child octant that fully contains the box forces every extent, hence the
least extent, below half the parent's edge length. -/
lemma minExt_lt_of_child (c : AACube) (i : Fin 8) (b : AABox)
    (h : cellContainsBox (childCell c i) b = true) : minExt b < c.scale / 2 := by
  simp only [cellContainsBox, childCell, Bool.and_eq_true, decide_eq_true_eq] at h
  obtain ⟨⟨⟨⟨⟨hx1, hx2⟩, hy1⟩, hy2⟩, hz1⟩, hz2⟩ := h
  have hx : b.hi.x - b.lo.x < c.scale / 2 := by linarith
  calc minExt b ≤ b.hi.x - b.lo.x := min_le_left _ _
    _ < c.scale / 2 := hx

/-- When the depth budget is generous enough for the box's extent, the descent
stops because no child octant of the final element contains the box. -/
lemma descend_noChild (b : AABox) :
    ∀ (d : ℕ) (c : AACube), c.scale ≤ 2 ^ d * (2 * minExt b) →
      ∀ i, cellContainsBox (childCell (descend c b d) i) b = false := by
  intro d
  induction d with
  | zero =>
    intro c hs i
    by_contra h
    have h2 : cellContainsBox (childCell (descend c b 0) i) b = true := by
      simpa using h
    have hlt := minExt_lt_of_child c i b (by simpa [descend] using h2)
    simp only [pow_zero, one_mul] at hs
    omega
  | succ d ih =>
    intro c hs i
    rw [descend]
    rcases hc : containingChild c b with _ | j
    · have := List.find?_eq_none.mp hc i (List.mem_finRange i)
      simpa using this
    · refine ih (childCell c j) ?_ i
      rw [childCell_scale]
      have h2k : (2 : ℤ) ^ (d + 1) * (2 * minExt b) = 2 * (2 ^ d * (2 * minExt b)) := by
        ring
      rw [h2k] at hs
      omega

/-- The low corner of a nonempty box contained in a cell lies in the cell. -/
lemma lo_mem_of_contains (c : AACube) (b : AABox)
    (hne : boxNonempty b = true) (h : cellContainsBox c b = true) :
    cellContainsPoint c b.lo := by
  simp only [boxNonempty, Bool.and_eq_true, decide_eq_true_eq] at hne
  simp only [cellContainsBox, Bool.and_eq_true, decide_eq_true_eq] at h
  obtain ⟨⟨hx, hy⟩, hz⟩ := hne
  obtain ⟨⟨⟨⟨⟨hx1, hx2⟩, hy1⟩, hy2⟩, hz1⟩, hz2⟩ := h
  exact ⟨⟨hx1, by linarith⟩, ⟨hy1, by linarith⟩, ⟨hz1, by linarith⟩⟩

/-- Distinct child octants are disjoint: no point lies in two of them. -/
lemma childCell_disjoint (c : AACube) (i j : Fin 8) (hij : i ≠ j) (v : Vec3)
    (hi : cellContainsPoint (childCell c i) v) :
    ¬ cellContainsPoint (childCell c j) v := by
  intro hj
  simp only [cellContainsPoint, childCell] at hi hj
  obtain ⟨⟨hix1, hix2⟩, ⟨hiy1, hiy2⟩, ⟨hiz1, hiz2⟩⟩ := hi
  obtain ⟨⟨hjx1, hjx2⟩, ⟨hjy1, hjy2⟩, ⟨hjz1, hjz2⟩⟩ := hj
  have hi8 := i.isLt
  have hj8 := j.isLt
  by_cases hx : i.val % 2 = j.val % 2
  · by_cases hy : i.val / 2 % 2 = j.val / 2 % 2
    · by_cases hz : i.val / 4 % 2 = j.val / 4 % 2
      · exact hij (Fin.ext (by omega))
      · have hcase : (i.val / 4 % 2 = 1 ∧ ¬ j.val / 4 % 2 = 1) ∨
            (¬ i.val / 4 % 2 = 1 ∧ j.val / 4 % 2 = 1) := by omega
        rcases hcase with ⟨h1, h2⟩ | ⟨h1, h2⟩
        · rw [if_pos h1] at hiz1; rw [if_neg h2] at hjz2; linarith
        · rw [if_neg h1] at hiz2; rw [if_pos h2] at hjz1; linarith
    · have hcase : (i.val / 2 % 2 = 1 ∧ ¬ j.val / 2 % 2 = 1) ∨
          (¬ i.val / 2 % 2 = 1 ∧ j.val / 2 % 2 = 1) := by omega
      rcases hcase with ⟨h1, h2⟩ | ⟨h1, h2⟩
      · rw [if_pos h1] at hiy1; rw [if_neg h2] at hjy2; linarith
      · rw [if_neg h1] at hiy2; rw [if_pos h2] at hjy1; linarith
  · have hcase : (i.val % 2 = 1 ∧ ¬ j.val % 2 = 1) ∨
        (¬ i.val % 2 = 1 ∧ j.val % 2 = 1) := by omega
    rcases hcase with ⟨h1, h2⟩ | ⟨h1, h2⟩
    · rw [if_pos h1] at hix1; rw [if_neg h2] at hjx2; linarith
    · rw [if_neg h1] at hix2; rw [if_pos h2] at hjx1; linarith

/-- If one octant contains the box and every other octant does not, the
first-match child search returns exactly that octant. -/
lemma containingChild_eq_some (c : AACube) (b : AABox) (i : Fin 8)
    (h : cellContainsBox (childCell c i) b = true)
    (hu : ∀ j, j ≠ i → cellContainsBox (childCell c j) b = false) :
    containingChild c b = some i := by
  have key : ∀ l : List (Fin 8), i ∈ l →
      l.find? (fun k => cellContainsBox (childCell c k) b) = some i := by
    intro l
    induction l with
    | nil => intro hm; simp at hm
    | cons a t ih =>
      intro hm
      by_cases ha : a = i
      · subst ha
        simp [List.find?, h]
      · have hfa : cellContainsBox (childCell c a) b = false := hu a ha
        have hmt : i ∈ t := by
          rcases List.mem_cons.mp hm with h1 | h2
          · exact absurd h1.symm ha
          · exact h2
        simp [List.find?, hfa, ih hmt]
  exact key (List.finRange 8) (List.mem_finRange i)

/-- Determinism of placement: an element reachable by an octal path that fully
contains a nonempty box, none of whose child octants contains the box, is
exactly where the insertion descent ends (for any sufficient depth budget).
This justifies the cheap path of `move`: if the new bound still fits the
current element and fits no child, the placement is still correct. -/
lemma descend_of_path (b : AABox) (hne : boxNonempty b = true) :
    ∀ (p : List (Fin 8)) (c : AACube) (d : ℕ), p.length ≤ d → 0 ≤ c.scale →
      cellContainsBox (applyPath c p) b = true →
      (∀ i, cellContainsBox (childCell (applyPath c p) i) b = false) →
      descend c b d = applyPath c p := by
  intro p
  induction p with
  | nil =>
    intro c d _ _ _ hstop
    rcases d with _ | d
    · rfl
    · rw [descend]
      have hnone : containingChild c b = none := by
        apply List.find?_eq_none.mpr
        intro i _
        simpa using hstop i
      rw [hnone]
      rfl
  | cons i rest ih =>
    intro c d hlen hs hcont hstop
    rcases d with _ | d
    · simp at hlen
    · have hs2 : 0 ≤ (childCell c i).scale := by
        rw [childCell_scale]; omega
      have hci : cellContainsBox (childCell c i) b = true := by
        exact cellContainsBox_of_applyPath b rest (childCell c i) hs2 hcont
      have huniq : ∀ j, j ≠ i → cellContainsBox (childCell c j) b = false := by
        intro j hj
        by_contra hcj
        have hcj2 : cellContainsBox (childCell c j) b = true := by
          simpa using hcj
        have hpi := lo_mem_of_contains (childCell c i) b hne hci
        have hpj := lo_mem_of_contains (childCell c j) b hne hcj2
        exact childCell_disjoint c i j (fun he => hj (he.symm)) b.lo hpi hpj
      have hsome : containingChild c b = some i := containingChild_eq_some c b i hci huniq
      rw [descend, hsome]
      have hlen2 : rest.length ≤ d := by
        simpa using Nat.succ_le_succ_iff.mp (by simpa using hlen)
      exact ih (childCell c i) d hlen2 hs2 hcont hstop

lemma boxNonempty_of_proper (b : AABox) (h : boxProper b = true) : boxNonempty b = true := by
  simp only [boxProper, Bool.and_eq_true, decide_eq_true_eq] at h
  simp only [boxNonempty, Bool.and_eq_true, decide_eq_true_eq]
  obtain ⟨⟨h1, h2⟩, h3⟩ := h
  exact ⟨⟨le_of_lt h1, le_of_lt h2⟩, le_of_lt h3⟩

/-- Some child octant of `c` fully contains the box. -/
def anyChildContains (c : AACube) (b : AABox) : Bool :=
  (List.finRange 8).any (fun i => cellContainsBox (childCell c i) b)

lemma anyChildContains_eq_false (c : AACube) (b : AABox)
    (h : anyChildContains c b = false) :
    ∀ i, cellContainsBox (childCell c i) b = false := by
  intro i
  have := List.any_eq_false.mp h i (List.mem_finRange i)
  simpa using this

/-! ## Association lists

`QHash` / `QMultiMap` mappings are embedded as association lists with the most
recent insertion at the front. -/

/-- Lookup in an association list keyed by entity id. -/
def lookupAssoc {α : Type} (l : List (ℕ × α)) (k : ℕ) : Option α :=
  (l.find? (fun e => decide (e.1 = k))).map Prod.snd

lemma lookupAssoc_nil {α : Type} (k : ℕ) : lookupAssoc ([] : List (ℕ × α)) k = none := rfl

lemma lookupAssoc_cons {α : Type} (a : ℕ × α) (l : List (ℕ × α)) (k : ℕ) :
    lookupAssoc (a :: l) k = if a.1 = k then some a.2 else lookupAssoc l k := by
  by_cases h : a.1 = k <;> simp [lookupAssoc, List.find?, h]

lemma lookupAssoc_eq_some_of_mem {α : Type} (l : List (ℕ × α)) (k : ℕ) (v : α)
    (hnd : (l.map Prod.fst).Nodup) (hm : (k, v) ∈ l) : lookupAssoc l k = some v := by
  induction l with
  | nil => simp at hm
  | cons a t ih =>
    rw [lookupAssoc_cons]
    rcases List.mem_cons.mp hm with h1 | h2
    · rw [← h1]
      simp
    · have hk : k ∈ t.map Prod.fst := List.mem_map.mpr ⟨(k, v), h2, rfl⟩
      have hne : a.1 ≠ k := by
        intro he
        exact (List.nodup_cons.mp (by simpa using hnd)).1 (he ▸ hk)
      rw [if_neg hne]
      exact ih (List.nodup_cons.mp (by simpa using hnd)).2 h2

lemma mem_of_lookupAssoc_eq_some {α : Type} (l : List (ℕ × α)) (k : ℕ) (v : α)
    (h : lookupAssoc l k = some v) : (k, v) ∈ l := by
  simp only [lookupAssoc, Option.map_eq_some'] at h
  obtain ⟨e, he, hv⟩ := h
  have hm := List.mem_of_find?_eq_some he
  have hp := List.find?_some he
  have hk : e.1 = k := by simpa using hp
  have : e = (k, v) := by
    cases e
    simp only at hk hv
    rw [hk, hv]
  exact this ▸ hm

lemma lookupAssoc_mapUpdate_self {α : Type} (l : List (ℕ × α)) (k : ℕ) (v : α) :
    lookupAssoc (l.map (fun e => if e.1 = k then (k, v) else e)) k =
      (lookupAssoc l k).map (fun _ => v) := by
  induction l with
  | nil => simp [lookupAssoc_nil]
  | cons a t ih =>
    rw [List.map_cons, lookupAssoc_cons, lookupAssoc_cons]
    by_cases ha : a.1 = k <;> simp [ha, ih]

lemma lookupAssoc_mapUpdate_other {α : Type} (l : List (ℕ × α)) (k : ℕ) (v : α)
    (k' : ℕ) (hk : k' ≠ k) :
    lookupAssoc (l.map (fun e => if e.1 = k then (k, v) else e)) k' =
      lookupAssoc l k' := by
  induction l with
  | nil => simp [lookupAssoc_nil]
  | cons a t ih =>
    rw [List.map_cons, lookupAssoc_cons, lookupAssoc_cons]
    have hk2 : ¬ (k = k') := fun he => hk he.symm
    by_cases ha : a.1 = k <;> simp [ha, hk2, ih]

lemma lookupAssoc_filter_ne {α : Type} (l : List (ℕ × α)) (k k' : ℕ) :
    lookupAssoc (l.filter (fun e => decide (e.1 ≠ k))) k' =
      if k' = k then none else lookupAssoc l k' := by
  induction l with
  | nil => simp [lookupAssoc_nil]
  | cons a t ih =>
    by_cases ha : a.1 = k
    · rw [List.filter_cons_of_neg (by simpa using ha), lookupAssoc_cons]
      by_cases hk : k' = k
      · simpa [hk] using ih
      · rw [if_neg (fun he : a.1 = k' => hk (ha ▸ he.symm))]
        simpa [hk] using ih
    · rw [List.filter_cons_of_pos (by simpa using ha), lookupAssoc_cons, lookupAssoc_cons]
      by_cases hak : a.1 = k'
      · have hk : ¬ (k' = k) := fun he => ha (hak.symm ▸ he)
        simp [hak, hk]
      · rw [if_neg hak, if_neg hak]
        exact ih

lemma keys_mapUpdate {α : Type} (l : List (ℕ × α)) (k : ℕ) (v : α) :
    (l.map (fun e => if e.1 = k then (k, v) else e)).map Prod.fst = l.map Prod.fst := by
  rw [List.map_map]
  apply List.map_congr_left
  intro e _
  by_cases h : e.1 = k <;> simp [h]

lemma keys_filter_nodup {α : Type} (l : List (ℕ × α)) (p : ℕ × α → Bool)
    (hnd : (l.map Prod.fst).Nodup) : ((l.filter p).map Prod.fst).Nodup :=
  List.Nodup.sublist (List.Sublist.map Prod.fst (List.filter_sublist l)) hnd

/-! ## The entity tree state and its operations

`EntityTree.cpp` is not part of the sources; the operations below are modelled
from the spec (§4.1 SpatialIndex, §4.2 EntityStore, §4.3 DeletionLedger),
against the interface declared in `EntityTree.h`. -/

/-- Entity properties: the axis-aligned bounding volume plus representative
payload fields, each with its default value (defaults may be omitted on
export). -/
structure EntityItemProperties where
  bound : AABox := ⟨⟨0, 0, 0⟩, ⟨1, 1, 1⟩⟩
  name : String := ""
  script : String := ""
deriving DecidableEq, Repr

/-- Modelled from the spec: the entity tree state behind `EntityTree.h` —
the live entity records, the identity index `_entityToElementMap`
(entity id → containing element cube), and the deletion ledger
`_recentlyDeletedEntityItemIDs` (deletion timestamp → entity id). -/
structure EntityTreeState where
  entities : List (ℕ × EntityItemProperties)
  entityToElementMap : List (ℕ × AACube)
  recentlyDeletedEntityItemIDs : List (ℕ × ℕ)
deriving DecidableEq, Repr

/-- The empty tree. -/
def emptyTree : EntityTreeState := ⟨[], [], []⟩

/-- `getContainingElement`: the element recorded for an entity id in the
identity index. -/
def getContainingElement (t : EntityTreeState) (eid : ℕ) : Option AACube :=
  lookupAssoc t.entityToElementMap eid

/-- Modelled from the spec: `recordDeletion(id, now)` of the DeletionLedger —
idempotent, repeated calls for the same id refresh the timestamp; realized on
`_recentlyDeletedEntityItemIDs` by replacing any previous entry for the id. -/
def recordDeletion (led : List (ℕ × ℕ)) (eid : ℕ) (now : ℕ) : List (ℕ × ℕ) :=
  (now, eid) :: led.filter (fun e => decide (e.2 ≠ eid))

/-- Modelled from the spec: `add(id, properties)` — fails on a duplicate
identifier or a degenerate bound (`InvalidBound`), otherwise stores the record
and indexes it at the element found by the insertion descent. -/
def addEntity (root : AACube) (D : ℕ) (t : EntityTreeState) (eid : ℕ)
    (props : EntityItemProperties) : Option EntityTreeState :=
  if (lookupAssoc t.entities eid).isSome then none
  else if boxProper props.bound = false then none
  else some
    { t with
      entities := (eid, props) :: t.entities,
      entityToElementMap := (eid, descend root props.bound D) :: t.entityToElementMap }

/-- Modelled from the spec: `update(id, properties)` / `move(entity, newBound)`
— fails on an unknown identifier or a degenerate bound; if the new bound still
fits the current element and fits no child octant, the element is kept (cheap
path), otherwise the entity is re-placed by a fresh insertion descent. -/
def updateEntity (root : AACube) (D : ℕ) (t : EntityTreeState) (eid : ℕ)
    (props : EntityItemProperties) : Option EntityTreeState :=
  match lookupAssoc t.entities eid, lookupAssoc t.entityToElementMap eid with
  | some _, some cur =>
    if boxProper props.bound = false then none
    else
      let newEl :=
        if cellContainsBox cur props.bound && !(anyChildContains cur props.bound)
        then cur
        else descend root props.bound D
      some
        { t with
          entities := t.entities.map (fun e => if e.1 = eid then (eid, props) else e),
          entityToElementMap :=
            t.entityToElementMap.map (fun e => if e.1 = eid then (eid, newEl) else e) }
  | _, _ => none

/-- Modelled from the spec: `delete(id)` — fails on an unknown identifier,
otherwise removes the record from the store and the identity index and records
a tombstone with the deletion time in the ledger. -/
def deleteEntity (t : EntityTreeState) (eid : ℕ) (now : ℕ) : Option EntityTreeState :=
  if (lookupAssoc t.entities eid).isSome then some
    { entities := t.entities.filter (fun e => decide (e.1 ≠ eid)),
      entityToElementMap := t.entityToElementMap.filter (fun e => decide (e.1 ≠ eid)),
      recentlyDeletedEntityItemIDs := recordDeletion t.recentlyDeletedEntityItemIDs eid now }
  else none

/-- One inbound mutation. -/
inductive TreeOp where
  | add (eid : ℕ) (props : EntityItemProperties)
  | update (eid : ℕ) (props : EntityItemProperties)
  | delete (eid : ℕ) (now : ℕ)
deriving DecidableEq, Repr

/-- Apply one mutation; a rejected operation leaves the tree unchanged
(typed failures never partially mutate the index). -/
def applyOp (root : AACube) (D : ℕ) (t : EntityTreeState) : TreeOp → EntityTreeState
  | TreeOp.add eid p => (addEntity root D t eid p).getD t
  | TreeOp.update eid p => (updateEntity root D t eid p).getD t
  | TreeOp.delete eid now => (deleteEntity t eid now).getD t

/-- Apply a sequence of mutations to a tree. -/
def runOps (root : AACube) (D : ℕ) (t : EntityTreeState) (ops : List TreeOp) :
    EntityTreeState :=
  ops.foldl (applyOp root D) t

/-- A bound compatible with the tree configuration: proper (non-degenerate),
inside the root volume, and of extent reachable within the depth budget. -/
def goodBound (root : AACube) (D : ℕ) (b : AABox) : Prop :=
  boxProper b = true ∧ cellContainsBox root b = true ∧
    root.scale ≤ 2 ^ D * (2 * minExt b)

instance (root : AACube) (D : ℕ) (b : AABox) : Decidable (goodBound root D b) := by
  unfold goodBound
  infer_instance

/-- The bounds carried by an operation are compatible with the configuration. -/
def opGood (root : AACube) (D : ℕ) : TreeOp → Prop
  | TreeOp.add _ p => goodBound root D p.bound
  | TreeOp.update _ p => goodBound root D p.bound
  | TreeOp.delete _ _ => True

instance (root : AACube) (D : ℕ) (op : TreeOp) : Decidable (opGood root D op) := by
  cases op <;> (unfold opGood; infer_instance)

/-- The internal consistency invariant of the tree: entity ids are unique,
every live entity has a compatible bound and is indexed exactly at the element
its insertion descent reaches, and the identity index carries no stale ids. -/
def goodState (root : AACube) (D : ℕ) (t : EntityTreeState) : Prop :=
  (t.entities.map Prod.fst).Nodup ∧
  (∀ eid p, (eid, p) ∈ t.entities →
    goodBound root D p.bound ∧
    lookupAssoc t.entityToElementMap eid = some (descend root p.bound D)) ∧
  (∀ eid, (lookupAssoc t.entityToElementMap eid).isSome →
    (lookupAssoc t.entities eid).isSome)

lemma lookupAssoc_eq_none {α : Type} (l : List (ℕ × α)) (k : ℕ) :
    lookupAssoc l k = none ↔ k ∉ l.map Prod.fst := by
  induction l with
  | nil => simp [lookupAssoc_nil]
  | cons a t ih =>
    rw [lookupAssoc_cons, List.map_cons]
    by_cases ha : a.1 = k
    · simp [ha]
    · have ha2 : ¬ (k = a.1) := fun h => ha h.symm
      simp [ha, ha2, ih]

lemma goodState_empty (root : AACube) (D : ℕ) : goodState root D emptyTree := by
  refine ⟨by simp [emptyTree], ?_, ?_⟩
  · intro eid p hm
    simp [emptyTree] at hm
  · intro eid h
    simp [emptyTree, lookupAssoc_nil] at h

lemma goodState_add (root : AACube) (D : ℕ) (t : EntityTreeState) (eid : ℕ)
    (p : EntityItemProperties) (hg : goodState root D t) (hgb : goodBound root D p.bound) :
    goodState root D ((addEntity root D t eid p).getD t) := by
  obtain ⟨hnd, hplace, hlive⟩ := hg
  cases hnone : lookupAssoc t.entities eid with
  | some p0 =>
    have hstep : (addEntity root D t eid p).getD t = t := by
      simp [addEntity, hnone]
    rw [hstep]
    exact ⟨hnd, hplace, hlive⟩
  | none =>
    cases hb : boxProper p.bound with
    | false =>
      have hstep : (addEntity root D t eid p).getD t = t := by
        simp [addEntity, hnone, hb]
      rw [hstep]
      exact ⟨hnd, hplace, hlive⟩
    | true =>
      have hstep : (addEntity root D t eid p).getD t =
          { t with
            entities := (eid, p) :: t.entities,
            entityToElementMap :=
              (eid, descend root p.bound D) :: t.entityToElementMap } := by
        simp [addEntity, hnone, hb]
      rw [hstep]
      refine ⟨?_, ?_, ?_⟩
      · simp only [List.map_cons]
        exact List.nodup_cons.mpr ⟨(lookupAssoc_eq_none t.entities eid).mp hnone, hnd⟩
      · intro eid' p' hm
        rcases List.mem_cons.mp hm with hh | ht
        · have he : eid' = eid := congrArg Prod.fst hh
          have hp : p' = p := congrArg Prod.snd hh
          subst he; subst hp
          exact ⟨hgb, by rw [lookupAssoc_cons]; simp⟩
      -- an old entity keeps its placement: its id differs from the new one
        · have hne : eid ≠ eid' := by
            intro he
            subst he
            exact (lookupAssoc_eq_none t.entities eid).mp hnone
              (List.mem_map.mpr ⟨(eid, p'), ht, rfl⟩)
          obtain ⟨hb, hl⟩ := hplace eid' p' ht
          exact ⟨hb, by rw [lookupAssoc_cons]; simpa [hne] using hl⟩
      · intro eid' hsome
        rw [lookupAssoc_cons]
        by_cases he : eid = eid'
        · simp [he]
        · rw [lookupAssoc_cons] at hsome
          simp only [he, if_false] at hsome ⊢
          exact hlive eid' (by simpa [he] using hsome)

lemma goodState_update (root : AACube) (D : ℕ) (t : EntityTreeState) (eid : ℕ)
    (p : EntityItemProperties) (hroot : 0 ≤ root.scale)
    (hg : goodState root D t) (hgb : goodBound root D p.bound) :
    goodState root D ((updateEntity root D t eid p).getD t) := by
  obtain ⟨hnd, hplace, hlive⟩ := hg
  cases he : lookupAssoc t.entities eid with
  | none =>
    cases hel : lookupAssoc t.entityToElementMap eid with
    | none =>
      have hstep : (updateEntity root D t eid p).getD t = t := by
        simp [updateEntity, he, hel]
      rw [hstep]; exact ⟨hnd, hplace, hlive⟩
    | some cur =>
      have hstep : (updateEntity root D t eid p).getD t = t := by
        simp [updateEntity, he, hel]
      rw [hstep]; exact ⟨hnd, hplace, hlive⟩
  | some p0 =>
    cases hel : lookupAssoc t.entityToElementMap eid with
    | none =>
      have hstep : (updateEntity root D t eid p).getD t = t := by
        simp [updateEntity, he, hel]
      rw [hstep]; exact ⟨hnd, hplace, hlive⟩
    | some cur =>
      cases hbc : boxProper p.bound with
      | false =>
        have hstep : (updateEntity root D t eid p).getD t = t := by
          simp [updateEntity, he, hel, hbc]
        rw [hstep]; exact ⟨hnd, hplace, hlive⟩
      | true =>
        have hbtrue : boxProper p.bound = true := hbc
        -- the currently indexed element is where the old bound's descent ends
        have hmem0 : (eid, p0) ∈ t.entities := mem_of_lookupAssoc_eq_some _ _ _ he
        have hcur : cur = descend root p0.bound D := by
          have := (hplace eid p0 hmem0).2
          rw [hel] at this
          exact Option.some.inj this
        -- in both the cheap path and the re-placement path, the new element is
        -- exactly where the new bound's descent ends
        have hEl : (if (cellContainsBox cur p.bound && !anyChildContains cur p.bound) = true
            then cur else descend root p.bound D) = descend root p.bound D := by
          by_cases hcheap :
              (cellContainsBox cur p.bound && !anyChildContains cur p.bound) = true
          · rw [if_pos hcheap]
            obtain ⟨hc1, hc2⟩ := Bool.and_eq_true_iff.mp hcheap
            have hac : anyChildContains cur p.bound = false := by simpa using hc2
            have hstop : ∀ i, cellContainsBox (childCell cur i) p.bound = false :=
              anyChildContains_eq_false cur p.bound hac
            have hpath := descend_eq_applyPath p0.bound D root
            have hlen := descendPath_length p0.bound D root
            have := descend_of_path p.bound (boxNonempty_of_proper _ hbtrue)
              (descendPath root p0.bound D) root D hlen hroot
              (by rw [← hpath, ← hcur]; exact hc1)
              (by rw [← hpath, ← hcur]; exact hstop)
            rw [this, ← hpath, ← hcur]
          · rw [if_neg hcheap]
        have hstep : (updateEntity root D t eid p).getD t =
            { t with
              entities := t.entities.map (fun e => if e.1 = eid then (eid, p) else e),
              entityToElementMap := t.entityToElementMap.map
                (fun e => if e.1 = eid then (eid, descend root p.bound D) else e) } := by
          simp only [updateEntity, he, hel, hbc, Option.getD_some]
          rw [if_neg (by simp : ¬ (true = false))]
          simp only [Option.getD_some, hEl]
        rw [hstep]
        refine ⟨?_, ?_, ?_⟩
        · rw [keys_mapUpdate]; exact hnd
        · intro eid' p' hm
          obtain ⟨e, hein, hfe⟩ := List.mem_map.mp hm
          by_cases hke : e.1 = eid
          · rw [if_pos hke] at hfe
            have h1 : eid' = eid := congrArg Prod.fst hfe.symm
            have h2 : p' = p := congrArg Prod.snd hfe.symm
            subst h1; subst h2
            refine ⟨hgb, ?_⟩
            rw [lookupAssoc_mapUpdate_self, hel]
            rfl
          · rw [if_neg hke] at hfe
            have hein2 : (eid', p') ∈ t.entities := hfe ▸ hein
            have hne : eid' ≠ eid := fun h => hke (by rw [hfe]; exact h)
            obtain ⟨hb, hl⟩ := hplace eid' p' hein2
            exact ⟨hb, by rw [lookupAssoc_mapUpdate_other _ _ _ _ hne]; exact hl⟩
        · intro eid' hsome
          by_cases hne : eid' = eid
          · subst hne
            rw [lookupAssoc_mapUpdate_self, he]
            rfl
          · rw [lookupAssoc_mapUpdate_other _ _ _ _ hne] at hsome
            rw [lookupAssoc_mapUpdate_other _ _ _ _ hne]
            exact hlive eid' hsome

lemma goodState_delete (root : AACube) (D : ℕ) (t : EntityTreeState) (eid : ℕ)
    (now : ℕ) (hg : goodState root D t) :
    goodState root D ((deleteEntity t eid now).getD t) := by
  obtain ⟨hnd, hplace, hlive⟩ := hg
  cases hv : lookupAssoc t.entities eid with
  | none =>
    have hstep : (deleteEntity t eid now).getD t = t := by
      simp [deleteEntity, hv]
    rw [hstep]; exact ⟨hnd, hplace, hlive⟩
  | some p0 =>
    have hstep : (deleteEntity t eid now).getD t =
        { entities := t.entities.filter (fun e => decide (e.1 ≠ eid)),
          entityToElementMap := t.entityToElementMap.filter (fun e => decide (e.1 ≠ eid)),
          recentlyDeletedEntityItemIDs :=
            recordDeletion t.recentlyDeletedEntityItemIDs eid now } := by
      simp [deleteEntity, hv]
    rw [hstep]
    refine ⟨keys_filter_nodup _ _ hnd, ?_, ?_⟩
    · intro eid' p' hm
      have hm2 := List.mem_filter.mp hm
      have hne : eid' ≠ eid := by simpa using hm2.2
      obtain ⟨hb, hl⟩ := hplace eid' p' hm2.1
      refine ⟨hb, ?_⟩
      rw [lookupAssoc_filter_ne, if_neg hne]
      exact hl
    · intro eid' hsome
      rw [lookupAssoc_filter_ne] at hsome
      by_cases hne : eid' = eid
      · rw [if_pos hne] at hsome; simp at hsome
      · rw [if_neg hne] at hsome
        rw [lookupAssoc_filter_ne, if_neg hne]
        exact hlive eid' hsome

lemma goodState_applyOp (root : AACube) (D : ℕ) (hroot : 0 ≤ root.scale)
    (t : EntityTreeState) (op : TreeOp) (hg : goodState root D t)
    (hop : opGood root D op) : goodState root D (applyOp root D t op) := by
  cases op with
  | add eid p => exact goodState_add root D t eid p hg hop
  | update eid p => exact goodState_update root D t eid p hroot hg hop
  | delete eid now => exact goodState_delete root D t eid now hg

lemma goodState_runOps (root : AACube) (D : ℕ) (hroot : 0 ≤ root.scale)
    (t : EntityTreeState) (ops : List TreeOp) (hg : goodState root D t)
    (hops : ∀ op ∈ ops, opGood root D op) :
    goodState root D (runOps root D t ops) := by
  induction ops generalizing t with
  | nil => exact hg
  | cons op rest ih =>
    exact ih (applyOp root D t op)
      (goodState_applyOp root D hroot t op hg (hops op (List.mem_cons_self op rest)))
      (fun o ho => hops o (List.mem_cons_of_mem op ho))

/-- Demonstration configuration: a 512 m root cube at the origin with depth
budget 10. -/
def rootCube512 : AACube := ⟨⟨0, 0, 0⟩, 512⟩

/-- A demonstration entity: a unit cube at (1,1,1). -/
def demoProps : EntityItemProperties := { bound := ⟨⟨1, 1, 1⟩, ⟨2, 2, 2⟩⟩ }

/-- C1: for every live entity in a tree built by any sequence of add, update
(move) and delete operations whose bounds are compatible with the root volume
and depth budget, the element recorded in the identity index
(`getContainingElement`, as used by `findEntityByEntityItemID`) fully contains
the entity's bounding volume, and no child octant of that element fully
contains it; every operation preserves this placement invariant. -/
theorem containingElement_placement_invariant (root : AACube) (D : ℕ)
    (ops : List TreeOp) (hroot : 0 ≤ root.scale)
    (hops : ∀ op ∈ ops, opGood root D op) (eid : ℕ) (p : EntityItemProperties)
    (hmem : (eid, p) ∈ (runOps root D emptyTree ops).entities) :
    ∃ c, getContainingElement (runOps root D emptyTree ops) eid = some c ∧
      cellContainsBox c p.bound = true ∧
      ∀ i, cellContainsBox (childCell c i) p.bound = false := by
  have hg := goodState_runOps root D hroot emptyTree ops (goodState_empty root D) hops
  obtain ⟨hnd, hplace, hlive⟩ := hg
  obtain ⟨hgb, hl⟩ := hplace eid p hmem
  exact ⟨descend root p.bound D, hl,
    descend_contains p.bound D root hgb.2.1,
    descend_noChild p.bound D root hgb.2.2⟩

/-- Concrete instantiation of the placement invariant: one entity added to a
512 m root volume with depth budget 10. -/
theorem containingElement_placement_invariant_witness :
    ∃ c, getContainingElement
        (runOps rootCube512 10 emptyTree [TreeOp.add 1 demoProps]) 1 = some c ∧
      cellContainsBox c demoProps.bound = true ∧
      ∀ i, cellContainsBox (childCell c i) demoProps.bound = false :=
  containingElement_placement_invariant rootCube512 10 [TreeOp.add 1 demoProps]
    (by norm_num [rootCube512])
    (by
      intro op hop
      simp only [List.mem_singleton] at hop
      subst hop
      exact (by decide : goodBound rootCube512 10 demoProps.bound))
    1 demoProps (by decide)

/-! ## The deletion ledger

`_recentlyDeletedEntityItemIDs : QMultiMap<quint64, QUuid>` maps deletion
timestamps to entity ids; it is embedded as a list of (timestamp, id) pairs.
The operations are modelled from the spec (§4.3 DeletionLedger) against the
interface declared in `EntityTree.h`. -/

/-- Modelled from the spec: `deletionsSince(timestamp)` / the query behind
`hasEntitiesDeletedSince` and `encodeEntitiesDeletedSince` — the identifiers
of entries deleted at or after the given time. -/
def entitiesDeletedSince (led : List (ℕ × ℕ)) (sinceTime : ℕ) : List ℕ :=
  (led.filter (fun e => decide (sinceTime ≤ e.1))).map Prod.snd

/-- `hasEntitiesDeletedSince`: whether any deletion at or after the given time
is on record. -/
def hasEntitiesDeletedSince (t : EntityTreeState) (sinceTime : ℕ) : Bool :=
  !(entitiesDeletedSince t.recentlyDeletedEntityItemIDs sinceTime).isEmpty

/-- Modelled from the spec: `forgetEntitiesDeletedBefore` / `purgeOlderThan` —
drop the ledger entries whose deletion timestamp is older than the horizon. -/
def forgetEntitiesDeletedBefore (t : EntityTreeState) (sinceTime : ℕ) : EntityTreeState :=
  { t with recentlyDeletedEntityItemIDs :=
      t.recentlyDeletedEntityItemIDs.filter (fun e => decide (sinceTime ≤ e.1)) }

/-- A sequence of deletion recordings applied to the ledger in order. -/
def applyRecordings (led : List (ℕ × ℕ)) (recs : List (ℕ × ℕ)) : List (ℕ × ℕ) :=
  recs.foldl (fun l r => recordDeletion l r.1 r.2) led

/-- The ledger entries carrying the given entity id. -/
def entriesFor (led : List (ℕ × ℕ)) (eid : ℕ) : List (ℕ × ℕ) :=
  led.filter (fun e => decide (e.2 = eid))

/-- The timestamp of the most recent recording for an id in a recording
sequence (recordings are (id, timestamp) pairs, oldest first). -/
def lastRecordingTime (recs : List (ℕ × ℕ)) (eid : ℕ) : Option ℕ :=
  recs.foldl (fun acc r => if r.1 = eid then some r.2 else acc) none

lemma filter_self_of_filter_ne (led : List (ℕ × ℕ)) (eid : ℕ) :
    (led.filter (fun e => decide (e.2 ≠ eid))).filter (fun e => decide (e.2 = eid)) = [] := by
  induction led with
  | nil => rfl
  | cons a rest ih =>
    by_cases ha : a.2 = eid
    · rw [List.filter_cons_of_neg (by simp [ha])]
      exact ih
    · rw [List.filter_cons_of_pos (by simp [ha]),
        List.filter_cons_of_neg (by simp [ha])]
      exact ih

lemma filter_self_of_filter_ne_other (led : List (ℕ × ℕ)) (eid eid' : ℕ)
    (h : eid ≠ eid') :
    (led.filter (fun e => decide (e.2 ≠ eid'))).filter (fun e => decide (e.2 = eid)) =
      led.filter (fun e => decide (e.2 = eid)) := by
  induction led with
  | nil => rfl
  | cons a rest ih =>
    by_cases ha2 : a.2 = eid'
    · rw [List.filter_cons_of_neg (by simp [ha2])]
      rw [List.filter_cons_of_neg (by simp [ha2]; exact fun he => h he.symm)]
      exact ih
    · rw [List.filter_cons_of_pos (by simp [ha2])]
      by_cases ha : a.2 = eid
      · rw [List.filter_cons_of_pos (by simp [ha]),
          List.filter_cons_of_pos (by simp [ha]), ih]
      · rw [List.filter_cons_of_neg (by simp [ha]),
          List.filter_cons_of_neg (by simp [ha])]
        exact ih

lemma entriesFor_recordDeletion_self (led : List (ℕ × ℕ)) (eid t : ℕ) :
    entriesFor (recordDeletion led eid t) eid = [(t, eid)] := by
  unfold entriesFor recordDeletion
  rw [List.filter_cons]
  simp [filter_self_of_filter_ne led eid]

lemma entriesFor_recordDeletion_other (led : List (ℕ × ℕ)) (eid eid' t : ℕ)
    (h : eid' ≠ eid) :
    entriesFor (recordDeletion led eid' t) eid = entriesFor led eid := by
  unfold entriesFor recordDeletion
  rw [List.filter_cons]
  rw [if_neg (by simp [h] : ¬ (decide ((t, eid').2 = eid) = true))]
  exact filter_self_of_filter_ne_other led eid eid' (fun he => h he.symm)

lemma applyRecordings_no_rec (recs : List (ℕ × ℕ)) :
    ∀ (led : List (ℕ × ℕ)) (eid : ℕ), (∀ r ∈ recs, r.1 ≠ eid) →
      entriesFor (applyRecordings led recs) eid = entriesFor led eid := by
  induction recs with
  | nil => intro led eid _; rfl
  | cons r rest ih =>
    intro led eid hno
    have h1 : applyRecordings led (r :: rest) =
        applyRecordings (recordDeletion led r.1 r.2) rest := rfl
    rw [h1, ih (recordDeletion led r.1 r.2) eid
      (fun r' hr' => hno r' (List.mem_cons_of_mem r hr'))]
    exact entriesFor_recordDeletion_other led eid r.1 r.2
      (hno r (List.mem_cons_self r rest))

lemma lastRec_foldl_no_match (recs : List (ℕ × ℕ)) (eid : ℕ) :
    ∀ acc, (∀ r ∈ recs, r.1 ≠ eid) →
      recs.foldl (fun acc r => if r.1 = eid then some r.2 else acc) acc = acc := by
  induction recs with
  | nil => intro acc _; rfl
  | cons r rest ih =>
    intro acc hno
    rw [List.foldl_cons, if_neg (hno r (List.mem_cons_self r rest))]
    exact ih acc (fun r' hr' => hno r' (List.mem_cons_of_mem r hr'))

lemma lastRec_foldl_acc_irrel (recs : List (ℕ × ℕ)) (eid : ℕ) :
    ∀ acc acc', (∃ r ∈ recs, r.1 = eid) →
      recs.foldl (fun acc r => if r.1 = eid then some r.2 else acc) acc =
      recs.foldl (fun acc r => if r.1 = eid then some r.2 else acc) acc' := by
  induction recs with
  | nil => intro acc acc' hex; simp at hex
  | cons r rest ih =>
    intro acc acc' hex
    rw [List.foldl_cons, List.foldl_cons]
    by_cases hr : r.1 = eid
    · rw [if_pos hr, if_pos hr]
    · rw [if_neg hr, if_neg hr]
      obtain ⟨r', hr', he'⟩ := hex
      rcases List.mem_cons.mp hr' with h1 | h2
      · exact absurd (h1 ▸ he') hr
      · exact ih acc acc' ⟨r', h2, he'⟩

/-- C2: recording a deletion is idempotent — after any sequence of deletion
recordings containing at least one recording for the given id, the ledger
(`_recentlyDeletedEntityItemIDs`) contains exactly one entry for that id, and
it carries the timestamp of the most recent recording. -/
theorem recordDeletion_collapses_to_latest (led recs : List (ℕ × ℕ)) (eid t : ℕ)
    (h : lastRecordingTime recs eid = some t) :
    entriesFor (applyRecordings led recs) eid = [(t, eid)] := by
  induction recs generalizing led with
  | nil => simp [lastRecordingTime] at h
  | cons r rest ih =>
    have hstep : applyRecordings led (r :: rest) =
        applyRecordings (recordDeletion led r.1 r.2) rest := rfl
    by_cases hrest : ∀ r' ∈ rest, r'.1 ≠ eid
    · have hfold : lastRecordingTime (r :: rest) eid =
          (if r.1 = eid then some r.2 else none) := by
        unfold lastRecordingTime
        rw [List.foldl_cons]
        exact lastRec_foldl_no_match rest eid _ hrest
      rw [hfold] at h
      by_cases hr : r.1 = eid
      · rw [if_pos hr] at h
        have ht : r.2 = t := Option.some.inj h
        rw [hstep, applyRecordings_no_rec rest (recordDeletion led r.1 r.2) eid hrest,
          hr, ht]
        exact entriesFor_recordDeletion_self led eid t
      · rw [if_neg hr] at h
        exact absurd h (by simp)
    · push_neg at hrest
      obtain ⟨r', hr', he'⟩ := hrest
      have hprev : lastRecordingTime rest eid = some t := by
        unfold lastRecordingTime at h ⊢
        rw [List.foldl_cons] at h
        rw [← lastRec_foldl_acc_irrel rest eid
          (if r.1 = eid then some r.2 else none) none ⟨r', hr', he'⟩]
        exact h
      rw [hstep]
      exact ih (recordDeletion led r.1 r.2) hprev

/-- Concrete instantiation of the idempotence of deletion recording: id 5 is
recorded at times 10 and 20 (with an interleaved recording of id 7) on top of
a ledger already holding a stale entry for id 5; exactly one entry remains
and it carries the latest timestamp 20. -/
theorem recordDeletion_collapses_to_latest_witness :
    entriesFor (applyRecordings [(3, 5)] [(5, 10), (7, 12), (5, 20)]) 5 = [(20, 5)] :=
  recordDeletion_collapses_to_latest [(3, 5)] [(5, 10), (7, 12), (5, 20)] 5 20
    (by decide)

/-- C4: the deletions-since query returns exactly the identifiers whose
deletion timestamp is at or after the given since-time; in particular an id
deleted at time T (and not purged) is included for since-time T-1 and excluded
for since-time T+1. -/
theorem entitiesDeletedSince_spec (led : List (ℕ × ℕ)) (eid T : ℕ) (hT : 1 ≤ T)
    (hin : (T, eid) ∈ led) (honly : ∀ e ∈ led, e.2 = eid → e.1 = T) :
    (∀ since eid', eid' ∈ entitiesDeletedSince led since ↔
      ∃ t', (t', eid') ∈ led ∧ since ≤ t') ∧
    eid ∈ entitiesDeletedSince led (T - 1) ∧
    eid ∉ entitiesDeletedSince led (T + 1) := by
  have hmem : ∀ since eid', eid' ∈ entitiesDeletedSince led since ↔
      ∃ t', (t', eid') ∈ led ∧ since ≤ t' := by
    intro since eid'
    unfold entitiesDeletedSince
    constructor
    · intro h
      obtain ⟨e, he, hsnd⟩ := List.mem_map.mp h
      have := List.mem_filter.mp he
      exact ⟨e.1, by rw [← hsnd]; exact (by simpa using this.1), by simpa using this.2⟩
    · intro ⟨t', hmem', hle⟩
      exact List.mem_map.mpr ⟨(t', eid'),
        List.mem_filter.mpr ⟨hmem', by simpa using hle⟩, rfl⟩
  refine ⟨hmem, ?_, ?_⟩
  · exact (hmem (T - 1) eid).mpr ⟨T, hin, by omega⟩
  · intro h
    obtain ⟨t', hmem', hle⟩ := (hmem (T + 1) eid).mp h
    have := honly (t', eid) hmem' rfl
    omega

/-- Concrete instantiation of the deletions-since query semantics: id 1
deleted at time 10 in a two-entry ledger. -/
theorem entitiesDeletedSince_spec_witness :
    (∀ since eid', eid' ∈ entitiesDeletedSince [(10, 1), (12, 2)] since ↔
      ∃ t', (t', eid') ∈ [(10, 1), (12, 2)] ∧ since ≤ t') ∧
    1 ∈ entitiesDeletedSince [(10, 1), (12, 2)] 9 ∧
    1 ∉ entitiesDeletedSince [(10, 1), (12, 2)] 11 :=
  entitiesDeletedSince_spec [(10, 1), (12, 2)] 1 10 (by decide) (by decide) (by decide)

/-- C5: purging the ledger keeps exactly the entries whose deletion timestamp
is at or after the horizon (entries strictly older are dropped, entries at or
after it are unchanged), and an id all of whose entries were purged is absent
from every subsequent deletions-since query, whatever its since-time. -/
theorem forgetEntitiesDeletedBefore_spec (t : EntityTreeState) (horizon : ℕ) :
    (∀ e, e ∈ (forgetEntitiesDeletedBefore t horizon).recentlyDeletedEntityItemIDs ↔
      (e ∈ t.recentlyDeletedEntityItemIDs ∧ horizon ≤ e.1)) ∧
    (∀ eid, (∀ e ∈ t.recentlyDeletedEntityItemIDs, e.2 = eid → e.1 < horizon) →
      ∀ since, eid ∉ entitiesDeletedSince
        (forgetEntitiesDeletedBefore t horizon).recentlyDeletedEntityItemIDs since) := by
  constructor
  · intro e
    unfold forgetEntitiesDeletedBefore
    constructor
    · intro h
      have := List.mem_filter.mp h
      exact ⟨this.1, by simpa using this.2⟩
    · intro ⟨h1, h2⟩
      exact List.mem_filter.mpr ⟨h1, by simpa using h2⟩
  · intro eid hall since h
    unfold forgetEntitiesDeletedBefore entitiesDeletedSince at h
    obtain ⟨e, he, hsnd⟩ := List.mem_map.mp h
    have h1 := List.mem_filter.mp he
    have h2 := List.mem_filter.mp h1.1
    have h3 : (e.1, eid) ∈ t.recentlyDeletedEntityItemIDs := by
      have : e = (e.1, eid) := by
        cases e; simp only at hsnd; rw [hsnd]
      rw [← this]; exact h2.1
    have h4 : horizon ≤ e.1 := by simpa using h2.2
    have := hall (e.1, eid) h3 rfl
    omega

/-- Concrete instantiation of the purge semantics: a ledger with entries at
times 5 and 10 purged at horizon 8; the time-5 entry's id is gone from every
query. -/
theorem forgetEntitiesDeletedBefore_spec_witness :
    1 ∉ entitiesDeletedSince
      (forgetEntitiesDeletedBefore ⟨[], [], [(5, 1), (10, 2)]⟩ 8).recentlyDeletedEntityItemIDs
      0 :=
  (forgetEntitiesDeletedBefore_spec ⟨[], [], [(5, 1), (10, 2)]⟩ 8).2 1 (by decide) 0

/-! ## Batch erase processing

`processEraseMessage` / `deleteEntities` remove a whole batch of ids; the
per-entity removal hooks (`deletingEntity` / `processRemovedEntities`) fire
only after the whole batch has been excised and ledgered.  Each fired hook is
recorded together with the tree state it observes. -/

/-- One delete step inside a batch: a failed delete (unknown id) leaves the
tree unchanged. -/
def deleteStep (now : ℕ) (t : EntityTreeState) (eid : ℕ) : EntityTreeState :=
  (deleteEntity t eid now).getD t

/-- A removal hook invocation: which entity it reports and the tree state the
observer sees at that moment. -/
structure EraseNotifyEvent where
  entityID : ℕ
  observed : EntityTreeState
deriving DecidableEq, Repr

/-- Modelled from the spec: `deleteEntities` / `processEraseMessage` — the
batch of ids is processed as a set: every present entity is removed and
ledgered first, and only then does each removal hook fire, observing the
fully updated tree. -/
def deleteEntities (t : EntityTreeState) (ids : List ℕ) (now : ℕ) :
    EntityTreeState × List EraseNotifyEvent :=
  let present := ids.filter (fun eid => (lookupAssoc t.entities eid).isSome)
  let t2 := present.foldl (deleteStep now) t
  (t2, present.map (fun eid => ⟨eid, t2⟩))

/-- Modelled from the spec: `processEraseMessage` decodes the batch of ids
from the wire and hands them to `deleteEntities`. -/
def processEraseMessage (t : EntityTreeState) (ids : List ℕ) (now : ℕ) :
    EntityTreeState × List EraseNotifyEvent :=
  deleteEntities t ids now

lemma deleteStep_entities_none (now : ℕ) (t : EntityTreeState) (eid k : ℕ)
    (h : lookupAssoc t.entities k = none) :
    lookupAssoc (deleteStep now t eid).entities k = none := by
  cases hv : lookupAssoc t.entities eid with
  | none => simpa [deleteStep, deleteEntity, hv] using h
  | some p0 =>
    have hstep : (deleteStep now t eid).entities =
        t.entities.filter (fun e => decide (e.1 ≠ eid)) := by
      simp [deleteStep, deleteEntity, hv]
    rw [hstep, lookupAssoc_filter_ne]
    by_cases hk : k = eid
    · simp [hk]
    · simp [hk, h]

lemma deleteStep_entities_self (now : ℕ) (t : EntityTreeState) (eid : ℕ) :
    lookupAssoc (deleteStep now t eid).entities eid = none := by
  cases hv : lookupAssoc t.entities eid with
  | none => simp [deleteStep, deleteEntity, hv]
  | some p0 =>
    have hstep : (deleteStep now t eid).entities =
        t.entities.filter (fun e => decide (e.1 ≠ eid)) := by
      simp [deleteStep, deleteEntity, hv]
    rw [hstep, lookupAssoc_filter_ne]
    simp

lemma deleteStep_entities_other (now : ℕ) (t : EntityTreeState) (eid k : ℕ)
    (h : k ≠ eid) :
    lookupAssoc (deleteStep now t eid).entities k = lookupAssoc t.entities k := by
  cases hv : lookupAssoc t.entities eid with
  | none => simp [deleteStep, deleteEntity, hv]
  | some p0 =>
    have hstep : (deleteStep now t eid).entities =
        t.entities.filter (fun e => decide (e.1 ≠ eid)) := by
      simp [deleteStep, deleteEntity, hv]
    rw [hstep, lookupAssoc_filter_ne, if_neg h]

lemma mem_recordDeletion_of_ne (led : List (ℕ × ℕ)) (eid k tm now : ℕ)
    (hne : k ≠ eid) (h : (tm, k) ∈ led) : (tm, k) ∈ recordDeletion led eid now := by
  unfold recordDeletion
  exact List.mem_cons_of_mem _ (List.mem_filter.mpr ⟨h, by simpa using hne⟩)

lemma deleteStep_ledger_keep (now₂ : ℕ) (t : EntityTreeState) (eid k tm : ℕ)
    (hm : (tm, k) ∈ t.recentlyDeletedEntityItemIDs)
    (hdead : lookupAssoc t.entities k = none) :
    (tm, k) ∈ (deleteStep now₂ t eid).recentlyDeletedEntityItemIDs := by
  cases hv : lookupAssoc t.entities eid with
  | none => simpa [deleteStep, deleteEntity, hv] using hm
  | some p0 =>
    have hne : k ≠ eid := by
      intro he
      rw [he, hv] at hdead
      exact Option.noConfusion hdead
    have hstep : (deleteStep now₂ t eid).recentlyDeletedEntityItemIDs =
        recordDeletion t.recentlyDeletedEntityItemIDs eid now₂ := by
      simp [deleteStep, deleteEntity, hv]
    rw [hstep]
    exact mem_recordDeletion_of_ne _ _ _ _ _ hne hm

lemma foldlDelete_none (now : ℕ) (l : List ℕ) :
    ∀ (t : EntityTreeState) (k : ℕ), lookupAssoc t.entities k = none →
      lookupAssoc (l.foldl (deleteStep now) t).entities k = none := by
  induction l with
  | nil => intro t k h; exact h
  | cons a rest ih =>
    intro t k h
    exact ih (deleteStep now t a) k (deleteStep_entities_none now t a k h)

lemma foldlDelete_removed (now : ℕ) (l : List ℕ) :
    ∀ (t : EntityTreeState) (k : ℕ), k ∈ l →
      lookupAssoc (l.foldl (deleteStep now) t).entities k = none := by
  induction l with
  | nil => intro t k h; simp at h
  | cons a rest ih =>
    intro t k h
    by_cases hk : k = a
    · subst hk
      exact foldlDelete_none now rest (deleteStep now t k) k
        (deleteStep_entities_self now t k)
    · rcases List.mem_cons.mp h with h1 | h2
      · exact absurd h1 hk
      · exact ih (deleteStep now t a) k h2

lemma foldlDelete_ledger_preserved (now : ℕ) (l : List ℕ) :
    ∀ (t : EntityTreeState) (k tm : ℕ),
      (tm, k) ∈ t.recentlyDeletedEntityItemIDs →
      lookupAssoc t.entities k = none →
      (tm, k) ∈ (l.foldl (deleteStep now) t).recentlyDeletedEntityItemIDs := by
  induction l with
  | nil => intro t k tm hm _; exact hm
  | cons a rest ih =>
    intro t k tm hm hdead
    exact ih (deleteStep now t a) k tm
      (deleteStep_ledger_keep now t a k tm hm hdead)
      (deleteStep_entities_none now t a k hdead)

lemma foldlDelete_records (now : ℕ) (l : List ℕ) :
    ∀ (t : EntityTreeState) (k : ℕ), k ∈ l →
      (lookupAssoc t.entities k).isSome →
      (now, k) ∈ (l.foldl (deleteStep now) t).recentlyDeletedEntityItemIDs := by
  induction l with
  | nil => intro t k h _; simp at h
  | cons a rest ih =>
    intro t k h hlive
    by_cases hk : k = a
    · subst hk
      cases hv : lookupAssoc t.entities k with
      | none => rw [hv] at hlive; simp at hlive
      | some p0 =>
        have hstep1 : (deleteStep now t k).recentlyDeletedEntityItemIDs =
            recordDeletion t.recentlyDeletedEntityItemIDs k now := by
          simp [deleteStep, deleteEntity, hv]
        have hmem : (now, k) ∈ (deleteStep now t k).recentlyDeletedEntityItemIDs := by
          rw [hstep1]
          exact List.mem_cons_self _ _
        exact foldlDelete_ledger_preserved now rest (deleteStep now t k) k now hmem
          (deleteStep_entities_self now t k)
    · rcases List.mem_cons.mp h with h1 | h2
      · exact absurd h1 hk
      · have : lookupAssoc (deleteStep now t a).entities k =
            lookupAssoc t.entities k := deleteStep_entities_other now t a k hk
        exact ih (deleteStep now t a) k h2 (by rw [this]; exact hlive)

/-- C3: batch erase is atomic with respect to observers — by the time any
removal hook of the batch fires, every member of the batch has already been
removed from the tree, and every member that was live has been recorded in
the deletion ledger; no hook can observe a partially-applied batch. -/
theorem processEraseMessage_atomic (t : EntityTreeState) (ids : List ℕ) (now : ℕ)
    (ev : EraseNotifyEvent) (hev : ev ∈ (processEraseMessage t ids now).2)
    (eid : ℕ) (hid : eid ∈ ids) :
    lookupAssoc ev.observed.entities eid = none ∧
    ((lookupAssoc t.entities eid).isSome = true →
      (now, eid) ∈ ev.observed.recentlyDeletedEntityItemIDs) := by
  obtain ⟨k, hk, hkev⟩ := List.mem_map.mp hev
  have hobs : ev.observed =
      (ids.filter (fun i => (lookupAssoc t.entities i).isSome)).foldl
        (deleteStep now) t := by
    rw [← hkev]
  rw [hobs]
  constructor
  · cases hv : lookupAssoc t.entities eid with
    | none => exact foldlDelete_none now _ t eid hv
    | some p0 =>
      have hpres : eid ∈ ids.filter (fun i => (lookupAssoc t.entities i).isSome) :=
        List.mem_filter.mpr ⟨hid, by simp [hv]⟩
      exact foldlDelete_removed now _ t eid hpres
  · intro hlive
    have hpres : eid ∈ ids.filter (fun i => (lookupAssoc t.entities i).isSome) :=
      List.mem_filter.mpr ⟨hid, by simpa using hlive⟩
    exact foldlDelete_records now _ t eid hpres hlive

/-- Concrete instantiation of batch-erase atomicity: a tree with live entities
1 and 2, fully erased as the batch {1, 2} at time 7; the hook reporting
entity 1 observes both already gone and both ledgered. -/
theorem processEraseMessage_atomic_witness :
    lookupAssoc
        (EraseNotifyEvent.observed
          ⟨1, ⟨[], [], [(7, 2), (7, 1)]⟩⟩).entities 2 = none ∧
    ((lookupAssoc
        (⟨[(1, demoProps), (2, demoProps)], [], []⟩ : EntityTreeState).entities 2).isSome = true →
      (7, 2) ∈ (EraseNotifyEvent.observed
          ⟨1, ⟨[], [], [(7, 2), (7, 1)]⟩⟩).recentlyDeletedEntityItemIDs) :=
  processEraseMessage_atomic ⟨[(1, demoProps), (2, demoProps)], [], []⟩ [1, 2] 7
    ⟨1, ⟨[], [], [(7, 2), (7, 1)]⟩⟩ (by decide) 2 (by decide)

/-! ## Description-map export and import

`writeToMap` / `readFromMap` round-trip the entity set through a description
map (`QVariantMap`): per entity, a list of field-name/value pairs, with
default-valued fields omitted when requested.  `EntityTree.cpp` is not among
the sources; the pair is modelled from the spec's round-trip contract. -/

/-- A value in a description map. -/
inductive PropValue where
  | boxVal (b : AABox)
  | strVal (s : String)
deriving DecidableEq, Repr

/-- The default-valued entity properties. -/
def defaultProperties : EntityItemProperties := {}

/-- Modelled from the spec: write one entity's properties as a description
map, omitting default-valued fields when `skipDefaultValues` is set. -/
def writeEntityToMap (skipDefaultValues : Bool) (p : EntityItemProperties) :
    List (String × PropValue) :=
  (if skipDefaultValues && decide (p.bound = defaultProperties.bound) then []
   else [("bound", PropValue.boxVal p.bound)]) ++
  (if skipDefaultValues && decide (p.name = defaultProperties.name) then []
   else [("name", PropValue.strVal p.name)]) ++
  (if skipDefaultValues && decide (p.script = defaultProperties.script) then []
   else [("script", PropValue.strVal p.script)])

/-- Lookup of a field name in a description map. -/
def lookupMapKey (m : List (String × PropValue)) (k : String) : Option PropValue :=
  (m.find? (fun e => decide (e.1 = k))).map Prod.snd

/-- Modelled from the spec: read entity properties back from a description
map; a missing field keeps its default value. -/
def readEntityFromMap (m : List (String × PropValue)) : EntityItemProperties :=
  { bound :=
      match lookupMapKey m "bound" with
      | some (PropValue.boxVal b) => b
      | _ => defaultProperties.bound,
    name :=
      match lookupMapKey m "name" with
      | some (PropValue.strVal s) => s
      | _ => defaultProperties.name,
    script :=
      match lookupMapKey m "script" with
      | some (PropValue.strVal s) => s
      | _ => defaultProperties.script }

/-- Modelled from the spec: `writeToMap` — export the whole entity set as a
description map. -/
def writeToMap (t : EntityTreeState) (skipDefaultValues : Bool) :
    List (ℕ × List (String × PropValue)) :=
  t.entities.map (fun e => (e.1, writeEntityToMap skipDefaultValues e.2))

/-- Modelled from the spec: `readFromMap` — import a description map into a
fresh tree, placing each imported entity at the element its insertion descent
reaches. -/
def readFromMap (root : AACube) (D : ℕ) (m : List (ℕ × List (String × PropValue))) :
    EntityTreeState :=
  { entities := m.map (fun e => (e.1, readEntityFromMap e.2)),
    entityToElementMap :=
      m.map (fun e => (e.1, descend root (readEntityFromMap e.2).bound D)),
    recentlyDeletedEntityItemIDs := [] }

lemma readEntity_writeEntity (skip : Bool) (p : EntityItemProperties) :
    readEntityFromMap (writeEntityToMap skip p) = p := by
  obtain ⟨pb, pn, ps⟩ := p
  cases skip
  · simp [writeEntityToMap, readEntityFromMap, lookupMapKey, List.find?]
  · by_cases h1 : pb = defaultProperties.bound <;>
      by_cases h2 : pn = defaultProperties.name <;>
        by_cases h3 : ps = defaultProperties.script <;>
          simp [writeEntityToMap, readEntityFromMap, lookupMapKey, List.find?,
            h1, h2, h3]

/-- C6: exporting the tree with `writeToMap` and importing the result with
`readFromMap` into a fresh tree reproduces exactly the same entity ids with
identical property values, whether or not default-valued fields were omitted
on export. -/
theorem writeToMap_readFromMap_roundtrip (root : AACube) (D : ℕ)
    (t : EntityTreeState) (skipDefaultValues : Bool) :
    (readFromMap root D (writeToMap t skipDefaultValues)).entities = t.entities := by
  unfold readFromMap writeToMap
  simp only [List.map_map]
  conv_rhs => rw [← List.map_id t.entities]
  apply List.map_congr_left
  intro e _
  simp [Function.comp, readEntity_writeEntity]

/-! ## Identity lookup -/

/-- `findEntityByEntityItemID` (and `findEntityByID`): consult the identity
index for the containing element; when one is on record, return the entity
stored there.  An id with no record yields an absent result rather than an
error, and the lookup — a pure function of the tree — modifies nothing. -/
def findEntityByEntityItemID (t : EntityTreeState) (eid : ℕ) :
    Option EntityItemProperties :=
  match getContainingElement t eid with
  | none => none
  | some _ => lookupAssoc t.entities eid

/-- C8: on every reachable tree, looking up an absent id returns `none`
rather than failing, and looking up a live entity returns exactly that
entity, through the identity index. -/
theorem findEntityByEntityItemID_spec (root : AACube) (D : ℕ) (ops : List TreeOp)
    (hroot : 0 ≤ root.scale) (hops : ∀ op ∈ ops, opGood root D op) (eid : ℕ) :
    (lookupAssoc (runOps root D emptyTree ops).entities eid = none →
      findEntityByEntityItemID (runOps root D emptyTree ops) eid = none) ∧
    (∀ p, (eid, p) ∈ (runOps root D emptyTree ops).entities →
      findEntityByEntityItemID (runOps root D emptyTree ops) eid = some p) := by
  obtain ⟨hnd, hplace, hlive⟩ :=
    goodState_runOps root D hroot emptyTree ops (goodState_empty root D) hops
  constructor
  · intro hnone
    unfold findEntityByEntityItemID
    cases hel : getContainingElement (runOps root D emptyTree ops) eid with
    | none => rfl
    | some c =>
      have := hlive eid (by
        unfold getContainingElement at hel
        rw [hel]
        rfl)
      rw [hnone] at this
      simp at this
  · intro p hm
    unfold findEntityByEntityItemID getContainingElement
    rw [(hplace eid p hm).2]
    exact lookupAssoc_eq_some_of_mem _ eid p hnd hm

/-- Concrete instantiation of the identity lookup: a tree holding only entity
1, queried for the absent id 2 and the live id 1. -/
theorem findEntityByEntityItemID_spec_witness :
    (lookupAssoc (runOps rootCube512 10 emptyTree [TreeOp.add 1 demoProps]).entities 2 = none →
      findEntityByEntityItemID (runOps rootCube512 10 emptyTree [TreeOp.add 1 demoProps]) 2 = none) ∧
    (∀ p, (2, p) ∈ (runOps rootCube512 10 emptyTree [TreeOp.add 1 demoProps]).entities →
      findEntityByEntityItemID (runOps rootCube512 10 emptyTree [TreeOp.add 1 demoProps]) 2 = some p) :=
  findEntityByEntityItemID_spec rootCube512 10 [TreeOp.add 1 demoProps]
    (by norm_num [rootCube512])
    (by
      intro op hop
      simp only [List.mem_singleton] at hop
      subst hop
      exact (by decide : goodBound rootCube512 10 demoProps.bound))
    2

/-! ## FBX service accessors

These two accessors are implemented inline in `EntityTree.h` and are embedded
from that code:
`return _fbxService ? _fbxService->getGeometryForEntity(entityItem) : NULL;`. -/

/-- Stand-in for the geometry payload returned by the FBX service. -/
structure FBXGeometry where
  meshCount : ℕ
deriving DecidableEq, Repr

/-- Stand-in for the model payload returned by the FBX service. -/
structure Model where
  modelID : ℕ
deriving DecidableEq, Repr

/-- The `EntityItemFBXService` capability interface: geometry and model
lookup for an entity item; each virtual call may itself return null. -/
structure EntityItemFBXService where
  getGeometryForEntity : ℕ × EntityItemProperties → Option FBXGeometry
  getModelForEntityItem : ℕ × EntityItemProperties → Option Model

/-- The `_fbxService` slot of the tree: a nullable service pointer. -/
structure EntityTreeServices where
  fbxService : Option EntityItemFBXService

/-- `setFBXService`: install (or clear) the service pointer. -/
def setFBXService (s : Option EntityItemFBXService) : EntityTreeServices :=
  { fbxService := s }

/-- `getGeometryForEntity`: null service yields NULL, otherwise delegate. -/
def getGeometryForEntity (t : EntityTreeServices)
    (entityItem : ℕ × EntityItemProperties) : Option FBXGeometry :=
  match t.fbxService with
  | some svc => svc.getGeometryForEntity entityItem
  | none => none

/-- `getModelForEntityItem`: null service yields NULL, otherwise delegate. -/
def getModelForEntityItem (t : EntityTreeServices)
    (entityItem : ℕ × EntityItemProperties) : Option Model :=
  match t.fbxService with
  | some svc => svc.getModelForEntityItem entityItem
  | none => none

/-- C9: with no FBX service installed (`_fbxService` null), both accessors
return NULL for every entity instead of dereferencing the null service — the
null branch makes them total. -/
theorem fbxService_null_safe (t : EntityTreeServices)
    (entityItem : ℕ × EntityItemProperties) (h : t.fbxService = none) :
    getGeometryForEntity t entityItem = none ∧
    getModelForEntityItem t entityItem = none := by
  unfold getGeometryForEntity getModelForEntityItem
  rw [h]
  exact ⟨rfl, rfl⟩

/-- Concrete instantiation of the null-service safety: a tree with no service
installed, asked for entity 1. -/
theorem fbxService_null_safe_witness :
    getGeometryForEntity (setFBXService none) (1, demoProps) = none ∧
    getModelForEntityItem (setFBXService none) (1, demoProps) = none :=
  fbxService_null_safe (setFBXService none) (1, demoProps) rfl

/-! ## ObjectActionPullToPoint::updateAction

Embedded from `libraries/physics/src/ObjectActionPullToPoint.cpp`.  Positions
are glm vectors, modelled over the rationals; `glm::length(v) < delta` is
expressed on squared lengths. -/

/-- A glm vector over the rationals. -/
structure Vec3F where
  x : ℚ
  y : ℚ
  z : ℚ
deriving DecidableEq, Repr

/-- Squared euclidean length. -/
def lengthSq (v : Vec3F) : ℚ := v.x * v.x + v.y * v.y + v.z * v.z

/-- `glm::normalize(v) = v / length(v)`: for the zero vector the division by
the zero length produces NaN components, modelled as `none`; otherwise the
(irrational) unit vector is represented exactly as the direction numerator
paired with its squared length. -/
def glmNormalize (v : Vec3F) : Option (Vec3F × ℚ) :=
  if lengthSq v = 0 then none else some (v, lengthSq v)

/-- `ObjectActionPullToPoint::updateAction`: compute the offset from the
entity's position to the target, replace it by the zero vector when its
length is below `IGNORE_POSITION_DELTA` (the `delta` parameter), then set the
new linear velocity to `glm::normalize(offset) * _speed`.  A `none` result
marks a velocity with undefined (NaN) components. -/
def updateAction (delta : ℚ) (target position : Vec3F) (speed : ℚ) :
    Option (Vec3F × ℚ) :=
  let offset : Vec3F :=
    ⟨target.x - position.x, target.y - position.y, target.z - position.z⟩
  let offset2 := if lengthSq offset < delta * delta then (⟨0, 0, 0⟩ : Vec3F) else offset
  (glmNormalize offset2).map
    (fun d => (⟨d.1.x * speed, d.1.y * speed, d.1.z * speed⟩, d.2))

/-- C10 (code bug): with the entity exactly at the target — an input the
guard explicitly handles by zeroing the offset — `glm::normalize` is applied
to the zero vector, dividing by zero length, so the computed new velocity is
undefined (NaN) rather than well-defined. -/
theorem updateAction_div_by_zero_at_target :
    updateAction (1 / 10000) ⟨0, 0, 0⟩ ⟨0, 0, 0⟩ 5 = none := by
  norm_num [updateAction, glmNormalize, lengthSq]

/-! ## Spatial range queries

The three `findEntities` overloads (sphere, cube, box) are modelled from the
spec as one traversal over a query region: any subtree whose element volume
does not intersect the region is pruned, and the entities of visited elements
are tested individually.  The traversal is a pure function of the tree. -/

/-- A query region: one per `findEntities` overload. -/
inductive QueryRegion where
  | sphere (center : Vec3) (radius : ℤ)
  | cube (c : AACube)
  | box (b : AABox)
deriving DecidableEq, Repr

/-- Closed boxes intersect (overlap on every axis). -/
def boxIntersectsBox (a b : AABox) : Bool :=
  decide (a.lo.x ≤ b.hi.x) && decide (b.lo.x ≤ a.hi.x) &&
  decide (a.lo.y ≤ b.hi.y) && decide (b.lo.y ≤ a.hi.y) &&
  decide (a.lo.z ≤ b.hi.z) && decide (b.lo.z ≤ a.hi.z)

/-- A sphere intersects a closed box: the squared distance from the center to
its closest point of the box (the center clamped to the box) is at most the
squared radius. -/
def sphereIntersectsBox (center : Vec3) (radius : ℤ) (b : AABox) : Bool :=
  let cx := max b.lo.x (min center.x b.hi.x)
  let cy := max b.lo.y (min center.y b.hi.y)
  let cz := max b.lo.z (min center.z b.hi.z)
  decide ((center.x - cx) * (center.x - cx) + (center.y - cy) * (center.y - cy) +
    (center.z - cz) * (center.z - cz) ≤ radius * radius)

/-- The closed box spanned by an element cube. -/
def toAABox (c : AACube) : AABox :=
  ⟨c.origin, ⟨c.origin.x + c.scale, c.origin.y + c.scale, c.origin.z + c.scale⟩⟩

/-- A query region intersects a closed box. -/
def regionIntersectsBox (r : QueryRegion) (b : AABox) : Bool :=
  match r with
  | QueryRegion.sphere center radius => sphereIntersectsBox center radius b
  | QueryRegion.cube c => boxIntersectsBox (toAABox c) b
  | QueryRegion.box qb => boxIntersectsBox qb b

/-- One closed box inside another. -/
def boxSubset (inner outer : AABox) : Prop :=
  outer.lo.x ≤ inner.lo.x ∧ inner.hi.x ≤ outer.hi.x ∧
  outer.lo.y ≤ inner.lo.y ∧ inner.hi.y ≤ outer.hi.y ∧
  outer.lo.z ≤ inner.lo.z ∧ inner.hi.z ≤ outer.hi.z

/-- Per-axis monotonicity of the clamp distance: clamping to a larger
interval gets at least as close. -/
lemma axis_clamp_mono (v lo hi lo' hi' : ℤ) (hne : lo ≤ hi) (h1 : lo' ≤ lo)
    (h2 : hi ≤ hi') :
    (v - max lo' (min v hi')) * (v - max lo' (min v hi')) ≤
    (v - max lo (min v hi)) * (v - max lo (min v hi)) := by
  rcases max_cases lo (min v hi) with ⟨e1, f1⟩ | ⟨e1, f1⟩ <;>
    rcases min_cases v hi with ⟨e2, f2⟩ | ⟨e2, f2⟩ <;>
    rcases max_cases lo' (min v hi') with ⟨e3, f3⟩ | ⟨e3, f3⟩ <;>
    rcases min_cases v hi' with ⟨e4, f4⟩ | ⟨e4, f4⟩ <;>
    rw [e2] at e1 f1 <;> rw [e4] at e3 f3 <;> rw [e2, e4, e1, e3] <;> nlinarith

/-- Pruning is sound for every region kind: a region hitting a nonempty box
also hits every enclosing box. -/
lemma regionIntersectsBox_mono (r : QueryRegion) (b c : AABox)
    (hne : boxNonempty b = true) (hsub : boxSubset b c)
    (h : regionIntersectsBox r b = true) : regionIntersectsBox r c = true := by
  obtain ⟨hs1, hs2, hs3, hs4, hs5, hs6⟩ := hsub
  simp only [boxNonempty, Bool.and_eq_true, decide_eq_true_eq] at hne
  obtain ⟨⟨hn1, hn2⟩, hn3⟩ := hne
  cases r with
  | sphere center radius =>
    simp only [regionIntersectsBox, sphereIntersectsBox, decide_eq_true_eq] at h ⊢
    have hx := axis_clamp_mono center.x b.lo.x b.hi.x c.lo.x c.hi.x hn1 hs1 hs2
    have hy := axis_clamp_mono center.y b.lo.y b.hi.y c.lo.y c.hi.y hn2 hs3 hs4
    have hz := axis_clamp_mono center.z b.lo.z b.hi.z c.lo.z c.hi.z hn3 hs5 hs6
    linarith
  | cube q =>
    simp only [regionIntersectsBox, boxIntersectsBox, Bool.and_eq_true,
      decide_eq_true_eq] at h ⊢
    obtain ⟨⟨⟨⟨⟨h1, h2⟩, h3⟩, h4⟩, h5⟩, h6⟩ := h
    exact ⟨⟨⟨⟨⟨by linarith, by linarith⟩, by linarith⟩, by linarith⟩, by linarith⟩,
      by linarith⟩
  | box q =>
    simp only [regionIntersectsBox, boxIntersectsBox, Bool.and_eq_true,
      decide_eq_true_eq] at h ⊢
    obtain ⟨⟨⟨⟨⟨h1, h2⟩, h3⟩, h4⟩, h5⟩, h6⟩ := h
    exact ⟨⟨⟨⟨⟨by linarith, by linarith⟩, by linarith⟩, by linarith⟩, by linarith⟩,
      by linarith⟩

/-- A box fully contained in an element (half-open) lies inside the element's
closed box. -/
lemma boxSubset_of_cellContains (c : AACube) (b : AABox)
    (h : cellContainsBox c b = true) : boxSubset b (toAABox c) := by
  simp only [cellContainsBox, Bool.and_eq_true, decide_eq_true_eq] at h
  obtain ⟨⟨⟨⟨⟨hx1, hx2⟩, hy1⟩, hy2⟩, hz1⟩, hz2⟩ := h
  exact ⟨hx1, by simpa [toAABox] using le_of_lt hx2,
    hy1, by simpa [toAABox] using le_of_lt hy2,
    hz1, by simpa [toAABox] using le_of_lt hz2⟩

/-- The recursive query traversal: prune any element whose volume does not
intersect the region; otherwise test the entities stored at the element and
recurse into its eight children while depth remains. -/
def findRec (r : QueryRegion) (ents : List (ℕ × EntityItemProperties))
    (root : AACube) (D : ℕ) : ℕ → AACube → List ℕ
  | 0, c =>
    if regionIntersectsBox r (toAABox c) then
      (ents.filter (fun e =>
        decide (descend root e.2.bound D = c) &&
          regionIntersectsBox r e.2.bound)).map Prod.fst
    else []
  | Nat.succ f, c =>
    if regionIntersectsBox r (toAABox c) then
      (ents.filter (fun e =>
        decide (descend root e.2.bound D = c) &&
          regionIntersectsBox r e.2.bound)).map Prod.fst ++
      (List.finRange 8).flatMap (fun i => findRec r ents root D f (childCell c i))
    else []

/-- `findEntities`: run the pruned traversal from the root.  A pure function:
the tree and its indices are arguments only and are not modified. -/
def findEntities (t : EntityTreeState) (root : AACube) (D : ℕ)
    (r : QueryRegion) : List ℕ :=
  findRec r t.entities root D D root

lemma findRec_sound (r : QueryRegion) (ents : List (ℕ × EntityItemProperties))
    (root : AACube) (D : ℕ) :
    ∀ (f : ℕ) (c : AACube) (x : ℕ), x ∈ findRec r ents root D f c →
      ∃ e ∈ ents, e.1 = x ∧ regionIntersectsBox r e.2.bound = true := by
  intro f
  induction f with
  | zero =>
    intro c x h
    rw [findRec] at h
    rcases hcond : regionIntersectsBox r (toAABox c) with _ | _
    · rw [hcond] at h; simp at h
    · rw [hcond] at h
      simp only [if_true] at h
      obtain ⟨e, he, hex⟩ := List.mem_map.mp h
      have h2 := List.mem_filter.mp he
      have h3 := Bool.and_eq_true_iff.mp h2.2
      exact ⟨e, h2.1, hex, h3.2⟩
  | succ f ih =>
    intro c x h
    rw [findRec] at h
    rcases hcond : regionIntersectsBox r (toAABox c) with _ | _
    · rw [hcond] at h; simp at h
    · rw [hcond] at h
      simp only [if_true] at h
      rcases List.mem_append.mp h with h1 | h2
      · obtain ⟨e, he, hex⟩ := List.mem_map.mp h1
        have h2 := List.mem_filter.mp he
        have h3 := Bool.and_eq_true_iff.mp h2.2
        exact ⟨e, h2.1, hex, h3.2⟩
      · obtain ⟨i, _, hm⟩ := List.mem_flatMap.mp h2
        exact ih (childCell c i) x hm

lemma findRec_complete_path (r : QueryRegion) (ents : List (ℕ × EntityItemProperties))
    (root : AACube) (D : ℕ) (x : ℕ) (pr : EntityItemProperties)
    (hne : boxNonempty pr.bound = true) (hx : (x, pr) ∈ ents)
    (hint : regionIntersectsBox r pr.bound = true) :
    ∀ (p : List (Fin 8)) (c : AACube) (f : ℕ), p.length ≤ f → 0 ≤ c.scale →
      applyPath c p = descend root pr.bound D →
      cellContainsBox (applyPath c p) pr.bound = true →
      x ∈ findRec r ents root D f c := by
  intro p
  induction p with
  | nil =>
    intro c f _ _ hpath hcont
    have hcontc : cellContainsBox c pr.bound = true := hcont
    have hprune : regionIntersectsBox r (toAABox c) = true :=
      regionIntersectsBox_mono r pr.bound (toAABox c) hne
        (boxSubset_of_cellContains c pr.bound hcontc) hint
    have hmem : x ∈ (ents.filter (fun e =>
        decide (descend root e.2.bound D = c) &&
          regionIntersectsBox r e.2.bound)).map Prod.fst := by
      refine List.mem_map.mpr ⟨(x, pr), List.mem_filter.mpr ⟨hx, ?_⟩, rfl⟩
      have hdec : descend root pr.bound D = c := hpath.symm
      simp [hdec, hint]
    cases f with
    | zero => rw [findRec, hprune]; simpa using hmem
    | succ f =>
      rw [findRec, hprune]
      simp only [if_true]
      exact List.mem_append.mpr (Or.inl hmem)
  | cons i rest ih =>
    intro c f hlen hs hpath hcont
    cases f with
    | zero => simp at hlen
    | succ f =>
      have hs2 : 0 ≤ (childCell c i).scale := by
        rw [childCell_scale]; omega
      have hcontc : cellContainsBox c pr.bound = true :=
        cellContainsBox_of_applyPath pr.bound (i :: rest) c hs hcont
      have hprune : regionIntersectsBox r (toAABox c) = true :=
        regionIntersectsBox_mono r pr.bound (toAABox c) hne
          (boxSubset_of_cellContains c pr.bound hcontc) hint
      rw [findRec, hprune]
      simp only [if_true]
      refine List.mem_append.mpr (Or.inr (List.mem_flatMap.mpr
        ⟨i, List.mem_finRange i, ?_⟩))
      exact ih (childCell c i) f (by simpa using Nat.succ_le_succ_iff.mp hlen) hs2
        hpath hcont

/-- C7: on every reachable tree, the pruned spatial query over any query
region — sphere, cube, or box — returns exactly the ids a brute-force linear
scan over all live entities would: those whose bounding volume intersects the
region.  The query is a pure function and modifies neither the tree nor any
index. -/
theorem findEntities_eq_bruteforce (root : AACube) (D : ℕ) (ops : List TreeOp)
    (r : QueryRegion) (hroot : 0 ≤ root.scale)
    (hops : ∀ op ∈ ops, opGood root D op) (x : ℕ) :
    x ∈ findEntities (runOps root D emptyTree ops) root D r ↔
      x ∈ ((runOps root D emptyTree ops).entities.filter
        (fun e => regionIntersectsBox r e.2.bound)).map Prod.fst := by
  obtain ⟨hnd, hplace, hlive⟩ :=
    goodState_runOps root D hroot emptyTree ops (goodState_empty root D) hops
  constructor
  · intro h
    obtain ⟨e, he, hex, hint⟩ := findRec_sound r _ root D D root x h
    exact List.mem_map.mpr ⟨e, List.mem_filter.mpr ⟨he, by simpa using hint⟩, hex⟩
  · intro h
    obtain ⟨e, he, hex⟩ := List.mem_map.mp h
    have h2 := List.mem_filter.mp he
    obtain ⟨hgb, _⟩ := hplace e.1 e.2 (by simpa using h2.1)
    have hcont : cellContainsBox root e.2.bound = true := hgb.2.1
    have hne : boxNonempty e.2.bound = true := boxNonempty_of_proper _ hgb.1
    have hpath := descend_eq_applyPath e.2.bound D root
    have hmem : (e.1, e.2) ∈ (runOps root D emptyTree ops).entities := by
      simpa using h2.1
    rw [← hex]
    exact findRec_complete_path r _ root D e.1 e.2 hne hmem (by simpa using h2.2)
      (descendPath root e.2.bound D) root D (descendPath_length e.2.bound D root)
      hroot hpath.symm
      (by rw [← hpath]; exact descend_contains e.2.bound D root hcont)

/-- Concrete instantiation of the query/brute-force agreement: entity 1 in a
512 m root volume, queried with a sphere of radius 3 about the origin. -/
theorem findEntities_eq_bruteforce_witness :
    1 ∈ findEntities (runOps rootCube512 10 emptyTree [TreeOp.add 1 demoProps])
        rootCube512 10 (QueryRegion.sphere ⟨0, 0, 0⟩ 3) ↔
      1 ∈ ((runOps rootCube512 10 emptyTree [TreeOp.add 1 demoProps]).entities.filter
        (fun e => regionIntersectsBox (QueryRegion.sphere ⟨0, 0, 0⟩ 3) e.2.bound)).map
          Prod.fst :=
  findEntities_eq_bruteforce rootCube512 10 [TreeOp.add 1 demoProps]
    (QueryRegion.sphere ⟨0, 0, 0⟩ 3) (by norm_num [rootCube512])
    (by
      intro op hop
      simp only [List.mem_singleton] at hop
      subst hop
      exact (by decide : goodBound rootCube512 10 demoProps.bound))
    1

end Hifi
